import Mathlib

/-!
Shallow embedding of the light-box animation program (src/main.py) over ℚ.

Python floats are modelled as rationals. Python's `%` on numbers is the
floored modulus (result takes the sign of the divisor); Python's `int(...)`
conversion truncates toward zero. Both are modelled explicitly below.
-/

set_option autoImplicit false

/-- Python's numeric `x % y`: floored modulus, `x - y * ⌊x / y⌋`.
For `y > 0` the result lies in `[0, y)`. (Python raises on `y = 0`; that
case is unreachable in the claims considered here.) -/
def pymod (x y : ℚ) : ℚ := x - y * ⌊x / y⌋

/-- Python's `int(...)` applied to a float: truncation toward zero. -/
def pytrunc (q : ℚ) : ℤ := if q < 0 then ⌈q⌉ else ⌊q⌋

theorem pymod_nonneg (x y : ℚ) (hy : 0 < y) : 0 ≤ pymod x y := by
  have h := Int.sub_floor_div_mul_nonneg x hy
  simpa [pymod, div_eq_mul_inv, mul_comm] using h

theorem pymod_lt (x y : ℚ) (hy : 0 < y) : pymod x y < y := by
  have h := Int.sub_floor_div_mul_lt x hy
  simpa [pymod, div_eq_mul_inv, mul_comm] using h

theorem pymod_eq_self (x y : ℚ) (h0 : 0 ≤ x) (h1 : x < y) : pymod x y = x := by
  have hy : 0 < y := lt_of_le_of_lt h0 h1
  have hfloor : ⌊x / y⌋ = 0 := by
    rw [Int.floor_eq_zero_iff]
    constructor
    · exact div_nonneg h0 hy.le
    · rwa [div_lt_one hy]
  simp [pymod, hfloor]

theorem pytrunc_of_nonneg (q : ℚ) (h : 0 ≤ q) : pytrunc q = ⌊q⌋ := by
  simp [pytrunc, not_lt.mpr h]

/-! ### Color value algebra (`class ColorF`) -/

/-- A color as stored: three rational channels (fields of `ColorF`). -/
structure ColorF where
  r : ℚ
  g : ℚ
  b : ℚ
deriving DecidableEq, Repr

/-- The `ColorF.__init__` constructor: each channel is upper-clamped to 1.0
via `min(input, 1.0)`; no lower clamp. -/
def ColorF.make (r g b : ℚ) : ColorF :=
  ⟨min r 1, min g 1, min b 1⟩

/-- `ColorF.scale_brightness`: multiply every channel by `brightness` and
re-clamp through the constructor. -/
def ColorF.scale_brightness (c : ColorF) (brightness : ℚ) : ColorF :=
  ColorF.make (c.r * brightness) (c.g * brightness) (c.b * brightness)

/-- The `ColorF.out` property: `(int(255.0*r), int(255.0*g), int(255.0*b))`,
Python `int` being truncation toward zero. -/
def ColorF.out (c : ColorF) : ℤ × ℤ × ℤ :=
  (pytrunc (255 * c.r), pytrunc (255 * c.g), pytrunc (255 * c.b))

/-- The `ColorF.is_black` property: every channel `≤ 0`. -/
def ColorF.is_black (c : ColorF) : Prop :=
  c.r ≤ 0 ∧ c.g ≤ 0 ∧ c.b ≤ 0

/-- `ColorF.mix`: accumulate the channel sums of all inputs, then build the
result through the clamping constructor (the computed input count `n` is
unused in the source). -/
def ColorF.mix (colors : List ColorF) : ColorF :=
  let r := colors.foldl (fun acc c => acc + c.r) 0
  let g := colors.foldl (fun acc c => acc + c.g) 0
  let b := colors.foldl (fun acc c => acc + c.b) 0
  ColorF.make r g b

/-- An animation, as the program uses it: `evaluate(t, n) → ColorF`. -/
abbrev Animation : Type := ℚ → ℚ → ColorF

/-- The pure-black animation (used as an out-of-range lookup default). -/
def blackAnimation : Animation := fun _ _ => ColorF.make 0 0 0

/-! ### Animation primitives and combinators -/

/-- `AnimationFlash.evaluate`: with a constant color source yielding `color`,
`x = t` (the commented-out wrap is not applied) and
`y = min(1.0 - (int(a*x) % b), 1.0 - (int(c*x) % d))`; the result is the
source color scaled by `y`. The position `n` is ignored. -/
def AnimationFlash.evaluate (color : ColorF) (a b c d : ℚ) (t _n : ℚ) : ColorF :=
  let x := t
  let y := min (1 - pymod ((pytrunc (a * x) : ℤ) : ℚ) b)
               (1 - pymod ((pytrunc (c * x) : ℤ) : ℚ) d)
  color.scale_brightness y

/-- Modelled from the spec's words for claim C6 (it is not what the code
computes for negative products): the flash envelope with a mathematical
floor, `y = min(1 - (⌊a*t⌋ mod b), 1 - (⌊c*t⌋ mod d))`. -/
def flashSpecFloorY (a b c d t : ℚ) : ℚ :=
  min (1 - pymod ((⌊a * t⌋ : ℤ) : ℚ) b) (1 - pymod ((⌊c * t⌋ : ℤ) : ℚ) d)

/-- `MixedAnimation.evaluate`: mix the children's results at `(t, n)`. -/
def MixedAnimation.evaluate (animations : List Animation) (t n : ℚ) : ColorF :=
  ColorF.mix (animations.map fun anim => anim t n)

/-- `ConcatenatedAnimation.durations`: one duration of `1.0` per child. -/
def ConcatenatedAnimation.durations (animations : List Animation) : List ℚ :=
  animations.map fun _ => 1

/-- `ConcatenatedAnimation.total_duration`: the sum of the durations. -/
def ConcatenatedAnimation.total_duration (animations : List Animation) : ℚ :=
  (ConcatenatedAnimation.durations animations).sum

/-- The loop body of `ConcatenatedAnimation.evaluate`: walk the zipped
`(animation, duration)` pairs accumulating `cumulative`; the first child
with `cumulative + dur >= t` handles the call at `local_t = t - cumulative`;
falling off the end returns pure black. -/
def concatGo (pairs : List (Animation × ℚ)) (cumulative t n : ℚ) : ColorF :=
  match pairs with
  | [] => ColorF.make 0 0 0
  | (anim, dur) :: rest =>
    if cumulative + dur ≥ t then anim (t - cumulative) n
    else concatGo rest (cumulative + dur) t n

/-- `ConcatenatedAnimation.evaluate`: reduce `t` modulo the total duration,
then dispatch through the accumulating walk. -/
def ConcatenatedAnimation.evaluate (animations : List Animation) (t n : ℚ) : ColorF :=
  concatGo (animations.zip (ConcatenatedAnimation.durations animations)) 0
    (pymod t (ConcatenatedAnimation.total_duration animations)) n

/-- `RemapAnimation.evaluate`: delegate at `t_mapped = t0 + (t1 - t0) * t`. -/
def RemapAnimation.evaluate (base : Animation) (t0 t1 : ℚ) (t n : ℚ) : ColorF :=
  base (t0 + (t1 - t0) * t) n

/-- `BakedAnimation`'s construction-time cache: a `t_steps × n_steps` grid of
evaluations of the base animation at `(t/t_steps, n/n_steps)`. -/
def BakedAnimation.cache (base : Animation) (t_steps n_steps : ℕ) : List (List ColorF) :=
  (List.range t_steps).map fun (t : ℕ) =>
    (List.range n_steps).map fun (n : ℕ) =>
      base ((t : ℚ) / (t_steps : ℚ)) ((n : ℚ) / (n_steps : ℚ))

/-- `BakedAnimation.evaluate`: wrap `t` and `n` into `[0,1)`, quantize each
into a grid index via `int(value * steps) % steps`, and look up the cache
(out-of-range lookups, unreachable for positive step counts, default to
black). -/
def BakedAnimation.evaluate (base : Animation) (t_steps n_steps : ℕ) (t n : ℚ) : ColorF :=
  let t' := pymod t 1
  let n' := pymod n 1
  let t_index := (pytrunc (t' * (t_steps : ℚ))).emod (t_steps : ℤ)
  let n_index := (pytrunc (n' * (n_steps : ℚ))).emod (n_steps : ℤ)
  ((BakedAnimation.cache base t_steps n_steps).getD t_index.toNat []).getD
    n_index.toNat (ColorF.make 0 0 0)

/-! ### Pixel topology (`NeoPixelBlock`, `NeoPixelReplicate`)

The physical sink is modelled as a total map from absolute indices to pixel
values; a bounds failure is reported as `none` (for reads) or a `false`
success flag (for writes, paired with the sink state reached so far, so that
partial-mutation behaviour is observable). -/

/-- A `NeoPixelBlock` view: the sub-range `[start, end)` of the sink. -/
structure NeoPixelBlock where
  start : ℤ
  «end» : ℤ
deriving DecidableEq, Repr

/-- The `NeoPixelBlock.n` property: `end - start`. -/
def NeoPixelBlock.n (blk : NeoPixelBlock) : ℤ := blk.«end» - blk.start

/-- `NeoPixelBlock.__getitem__`: bounds-checked read at `start + index`. -/
def NeoPixelBlock.get {V : Type} (np : ℤ → V) (blk : NeoPixelBlock) (index : ℤ) :
    Option V :=
  if index < 0 ∨ index ≥ blk.n then none else some (np (blk.start + index))

/-- `NeoPixelBlock.set` (`__setitem__`): bounds-checked write at
`start + index`; returns the success flag and the resulting sink. -/
def NeoPixelBlock.set {V : Type} (np : ℤ → V) (blk : NeoPixelBlock) (index : ℤ)
    (value : V) : Bool × (ℤ → V) :=
  if index < 0 ∨ index ≥ blk.n then (false, np)
  else (true, fun j => if j = blk.start + index then value else np j)

/-- `NeoPixelBlock.fill`: write `color` to every absolute index in
`[start, end)`. -/
def NeoPixelBlock.fill {V : Type} (np : ℤ → V) (blk : NeoPixelBlock) (color : V) :
    ℤ → V :=
  fun j => if blk.start ≤ j ∧ j < blk.«end» then color else np j

/-- The `NeoPixelReplicate.n` field: `min(np.n for np in nps)` (the Python
`min` raises on an empty sequence; the empty case is modelled as 0 and not
used by any claim). -/
def NeoPixelReplicate.n (blocks : List NeoPixelBlock) : ℤ :=
  match blocks with
  | [] => 0
  | blk :: rest => rest.foldl (fun acc b => min acc b.n) blk.n

/-- `NeoPixelReplicate.__getitem__`: bounds-checked against the replicate's
own `n`, then read through the first child. -/
def NeoPixelReplicate.get {V : Type} (np : ℤ → V) (blocks : List NeoPixelBlock)
    (index : ℤ) : Option V :=
  if index < 0 ∨ index ≥ NeoPixelReplicate.n blocks then none
  else
    match blocks with
    | [] => none
    | blk :: _ => NeoPixelBlock.get np blk index

/-- The fan-out loop of `NeoPixelReplicate.set`: write through each child in
order, stopping (with the state mutated so far) at the first child whose own
bounds check fails. -/
def replicateSetGo {V : Type} (np : ℤ → V) (blocks : List NeoPixelBlock)
    (index : ℤ) (value : V) : Bool × (ℤ → V) :=
  match blocks with
  | [] => (true, np)
  | blk :: rest =>
    let res := NeoPixelBlock.set np blk index value
    if res.1 then replicateSetGo res.2 rest index value else (false, res.2)

/-- `NeoPixelReplicate.set` (`__setitem__`): bounds-checked against the
replicate's own `n` before any child is touched, then fan out the write. -/
def NeoPixelReplicate.set {V : Type} (np : ℤ → V) (blocks : List NeoPixelBlock)
    (index : ℤ) (value : V) : Bool × (ℤ → V) :=
  if index < 0 ∨ index ≥ NeoPixelReplicate.n blocks then (false, np)
  else replicateSetGo np blocks index value

/-! ### Test fixtures used only by witness theorems -/

/-- A sample animation that records its arguments in the color channels. -/
def probeAnimation : Animation := fun t n => ColorF.make t n 0

/-- A constant red animation. -/
def redAnimation : Animation := fun _ _ => ColorF.make 1 0 0

/-! ### Helper lemmas -/

theorem foldl_add_map (f : ColorF → ℚ) :
    ∀ (l : List ColorF) (a : ℚ),
      l.foldl (fun acc c => acc + f c) a = a + (l.map f).sum := by
  intro l
  induction l with
  | nil => intro a; simp
  | cons c rest ih =>
    intro a
    simp [List.foldl_cons, ih (a + f c)]
    ring

/-! ### Claim C3: mix is a clamped sum -/

/-- Claim C3: each channel of `mix(c1,...,ck)` is `min(sum of that channel, 1.0)`
(a clamped sum, never an average); `mix(Color(0.6,0,0), Color(0.6,0,0)).r = 1`
and `mix(Color(0.3,0,0), Color(0.3,0,0)).r = 0.6`; the `MixedAnimation`
combinator applies `ColorF.mix` to its children's results. -/
theorem mix_clamped_sum :
    (∀ colors : List ColorF,
      (ColorF.mix colors).r = min ((colors.map ColorF.r).sum) 1 ∧
      (ColorF.mix colors).g = min ((colors.map ColorF.g).sum) 1 ∧
      (ColorF.mix colors).b = min ((colors.map ColorF.b).sum) 1) ∧
    (ColorF.mix [ColorF.make (6/10) 0 0, ColorF.make (6/10) 0 0]).r = 1 ∧
    (ColorF.mix [ColorF.make (3/10) 0 0, ColorF.make (3/10) 0 0]).r = 6/10 ∧
    (∀ (animations : List Animation) (t n : ℚ),
      MixedAnimation.evaluate animations t n =
        ColorF.mix (animations.map fun anim => anim t n)) := by
  refine ⟨?_, ?_, ?_, fun _ _ _ => rfl⟩
  · intro colors
    refine ⟨?_, ?_, ?_⟩ <;>
      simp [ColorF.mix, ColorF.make, foldl_add_map]
  · norm_num [ColorF.mix, ColorF.make]
  · norm_num [ColorF.mix, ColorF.make]

/-! ### Claim C4: construction clamping and scaling -/

/-- Claim C4 counterexample: the stated identity
`Color(r,g,b).scale(k).r = min(r*k, 1.0)` fails for an unclamped input
channel: with `r = 2` and `k = 1/2` the code yields `1/2` (the constructor
first clamps `r` to 1), while `min(r*k, 1) = 1`. -/
theorem color_scale_claim_counterexample :
    ¬ (((ColorF.make 2 0 0).scale_brightness (1/2)).r = min ((2:ℚ) * (1/2)) 1) := by
  norm_num [ColorF.make, ColorF.scale_brightness]

/-- Claim C4 (amended): construction sets each channel to `min(input, 1)`
(hence every channel of every constructed color is `≤ 1`, with no lower
bound enforced); `scale_brightness` preserves the `≤ 1` invariant by
re-clamping after multiplication; and the identity
`Color(r,g,b).scale(k).r = min(r*k, 1)` holds for `k ≥ 0` provided the input
channel is already `≤ 1` (likewise for g and b) — for channels above 1 the
constructor clamp runs first. -/
theorem color_clamp_invariant_scale :
    (∀ r g b : ℚ,
      (ColorF.make r g b).r = min r 1 ∧
      (ColorF.make r g b).g = min g 1 ∧
      (ColorF.make r g b).b = min b 1) ∧
    (∀ r g b : ℚ,
      (ColorF.make r g b).r ≤ 1 ∧ (ColorF.make r g b).g ≤ 1 ∧
      (ColorF.make r g b).b ≤ 1) ∧
    (∀ (c : ColorF) (k : ℚ),
      (c.scale_brightness k).r ≤ 1 ∧ (c.scale_brightness k).g ≤ 1 ∧
      (c.scale_brightness k).b ≤ 1) ∧
    (∀ r g b k : ℚ, 0 ≤ k → r ≤ 1 →
      ((ColorF.make r g b).scale_brightness k).r = min (r * k) 1) ∧
    (∀ r g b k : ℚ, 0 ≤ k → g ≤ 1 →
      ((ColorF.make r g b).scale_brightness k).g = min (g * k) 1) ∧
    (∀ r g b k : ℚ, 0 ≤ k → b ≤ 1 →
      ((ColorF.make r g b).scale_brightness k).b = min (b * k) 1) := by
  refine ⟨fun r g b => ⟨rfl, rfl, rfl⟩,
          fun r g b => ⟨min_le_right _ _, min_le_right _ _, min_le_right _ _⟩,
          fun c k => ⟨min_le_right _ _, min_le_right _ _, min_le_right _ _⟩,
          ?_, ?_, ?_⟩ <;>
    · intro r g b k _hk hle
      simp [ColorF.make, ColorF.scale_brightness, min_eq_left hle]

/-- Witness for the amended claim C4, at `r = 1/2`, `k = 3`. -/
theorem color_clamp_invariant_scale_witness :
    ((ColorF.make (1/2) 0 0).scale_brightness 3).r = min ((1/2 : ℚ) * 3) 1 :=
  color_clamp_invariant_scale.2.2.2.1 (1/2) 0 0 3 (by norm_num) (by norm_num)

/-! ### Claim C5: byte conversion -/

/-- Claim C5 counterexample: `to_bytes` does not follow the
`floor(255*channel)` rule on a negative channel. For `Color(-1/2, 0, 0)` the
code computes `int(255 * (-1/2)) = -127` (truncation toward zero), while
`⌊255 * (-1/2)⌋ = -128`. -/
theorem out_floor_counterexample :
    ¬ ((ColorF.make (-1/2) 0 0).out.1 = ⌊(255:ℚ) * (ColorF.make (-1/2) 0 0).r⌋) := by
  have hr : (ColorF.make (-1/2) 0 0).r = -1/2 := by norm_num [ColorF.make]
  have htr : pytrunc ((255:ℚ) * (-1/2)) = -127 := by
    rw [pytrunc, if_pos (by norm_num), Int.ceil_eq_iff]
    norm_num
  have hfl : ⌊(255:ℚ) * (-1/2)⌋ = -128 := by norm_num
  simp only [ColorF.out, hr, htr, hfl]
  norm_num

/-- Claim C5 (amended): `to_bytes()` returns
`(int(255*r), int(255*g), int(255*b))` with Python `int` truncation toward
zero; this agrees with `floor(255*channel)` exactly on nonnegative channels;
each component lies in `[0,255]` whenever the channel is in `[0,1]`; no
defensive clamping is applied, so a channel `≤ -1/255` yields a negative
component (computed by truncation toward zero, not by floor). -/
theorem out_truncation :
    (∀ c : ColorF,
      c.out = (pytrunc (255 * c.r), pytrunc (255 * c.g), pytrunc (255 * c.b))) ∧
    (∀ c : ColorF, 0 ≤ c.r → c.out.1 = ⌊(255:ℚ) * c.r⌋) ∧
    (∀ c : ColorF, 0 ≤ c.g → c.out.2.1 = ⌊(255:ℚ) * c.g⌋) ∧
    (∀ c : ColorF, 0 ≤ c.b → c.out.2.2 = ⌊(255:ℚ) * c.b⌋) ∧
    (∀ c : ColorF, 0 ≤ c.r → c.r ≤ 1 → 0 ≤ c.out.1 ∧ c.out.1 ≤ 255) ∧
    (∀ c : ColorF, 0 ≤ c.g → c.g ≤ 1 → 0 ≤ c.out.2.1 ∧ c.out.2.1 ≤ 255) ∧
    (∀ c : ColorF, 0 ≤ c.b → c.b ≤ 1 → 0 ≤ c.out.2.2 ∧ c.out.2.2 ≤ 255) ∧
    (∀ c : ColorF, c.r ≤ -1/255 → c.out.1 < 0) := by
  have hfl : ∀ q : ℚ, 0 ≤ q → pytrunc (255 * q) = ⌊(255:ℚ) * q⌋ := fun q hq =>
    pytrunc_of_nonneg _ (by positivity)
  have hbd : ∀ q : ℚ, 0 ≤ q → q ≤ 1 →
      0 ≤ pytrunc (255 * q) ∧ pytrunc (255 * q) ≤ 255 := by
    intro q hq hq1
    rw [hfl q hq]
    constructor
    · exact Int.floor_nonneg.mpr (by positivity)
    · have : (255:ℚ) * q ≤ 255 := by nlinarith
      calc ⌊(255:ℚ) * q⌋ ≤ ⌊(255:ℚ)⌋ := Int.floor_le_floor this
        _ = 255 := by norm_num
  refine ⟨fun c => rfl,
          fun c h => hfl _ h, fun c h => hfl _ h, fun c h => hfl _ h,
          fun c h h1 => hbd _ h h1, fun c h h1 => hbd _ h h1,
          fun c h h1 => hbd _ h h1, ?_⟩
  intro c h
  have hle : (255:ℚ) * c.r ≤ -1 := by nlinarith
  have hneg : (255:ℚ) * c.r < 0 := lt_of_le_of_lt hle (by norm_num)
  show pytrunc (255 * c.r) < 0
  rw [pytrunc, if_pos hneg]
  have hc : ⌈(255:ℚ) * c.r⌉ ≤ ⌈(-1:ℚ)⌉ := Int.ceil_le_ceil hle
  have h1 : ⌈(-1:ℚ)⌉ = -1 := by
    rw [show (-1:ℚ) = ((-1:ℤ):ℚ) by norm_num, Int.ceil_intCast]
  omega

/-- Witness for the amended claim C5, at the color `Color(1/2, 0, 0)`. -/
theorem out_truncation_witness :
    (ColorF.make (1/2) 0 0).out.1 = ⌊(255:ℚ) * (ColorF.make (1/2) 0 0).r⌋ :=
  out_truncation.2.1 (ColorF.make (1/2) 0 0) (by norm_num [ColorF.make])

/-! ### Claim C9: Remap is linear with no clamping -/

/-- Claim C9: `Remap(base, t0, t1).evaluate(t, n) = base.evaluate(t0 + (t1-t0)*t, n)`
for every `t` (so values outside `[0,1]` extrapolate linearly, unclamped);
in particular `evaluate(0, n) = base.evaluate(t0, n)` and
`evaluate(1, n) = base.evaluate(t1, n)`, instantiated at `t0 = 2`, `t1 = 5`. -/
theorem remap_linear :
    ∀ (base : Animation) (t0 t1 t n : ℚ),
      RemapAnimation.evaluate base t0 t1 t n = base (t0 + (t1 - t0) * t) n ∧
      RemapAnimation.evaluate base t0 t1 0 n = base t0 n ∧
      RemapAnimation.evaluate base t0 t1 1 n = base t1 n ∧
      RemapAnimation.evaluate base 2 5 0 n = base 2 n ∧
      RemapAnimation.evaluate base 2 5 1 n = base 5 n := by
  intro base t0 t1 t n
  refine ⟨rfl, ?_, ?_, ?_, ?_⟩ <;>
    · rw [RemapAnimation.evaluate]
      norm_num

/-! ### Claim C6: the flash envelope -/

/-- Claim C6 counterexample: for negative `t` the code does not follow the
`floor` formula. At `t = -1/24` with `(a,b,c,d) = (12,2,2,2)` and a red
source, the code computes `int(12 * (-1/24)) = int(-1/2) = 0` (truncation
toward zero), giving envelope `y = 1` and a red result, while the claimed
`⌊12 * (-1/24)⌋ = -1` gives `y = 0` and a black result. -/
theorem flash_floor_counterexample :
    ¬ (AnimationFlash.evaluate (ColorF.make 1 0 0) 12 2 2 2 (-1/24) 0 =
       (ColorF.make 1 0 0).scale_brightness (flashSpecFloorY 12 2 2 2 (-1/24))) := by
  have e1 : pytrunc ((12:ℚ) * (-1/24)) = 0 := by
    rw [pytrunc, if_pos (by norm_num), Int.ceil_eq_iff]
    norm_num
  have e2 : pytrunc ((2:ℚ) * (-1/24)) = 0 := by
    rw [pytrunc, if_pos (by norm_num), Int.ceil_eq_iff]
    norm_num
  have f1 : ⌊(12:ℚ) * (-1/24)⌋ = -1 := by norm_num
  have f2 : ⌊(2:ℚ) * (-1/24)⌋ = -1 := by norm_num
  simp only [AnimationFlash.evaluate, flashSpecFloorY, e1, e2, f1, f2]
  norm_num [pymod, ColorF.scale_brightness, ColorF.make, ColorF.mk.injEq]

/-- Claim C6 (amended): the stated formula
`y = min(1 - (⌊a*t⌋ mod b), 1 - (⌊c*t⌋ mod d))` describes the code whenever
`a*t` and `c*t` are computed from nonnegative factors (`t ≥ 0`, `a ≥ 0`,
`c ≥ 0`, where Python `int` truncation agrees with floor), with `t` used
directly and not pre-wrapped into `[0,1)`; for negative products the code
truncates toward zero instead of flooring. -/
theorem flash_floor_on_nonneg :
    ∀ (color : ColorF) (a b c d t n : ℚ), 0 ≤ t → 0 ≤ a → 0 ≤ c →
      AnimationFlash.evaluate color a b c d t n =
        color.scale_brightness (flashSpecFloorY a b c d t) := by
  intro color a b c d t n ht ha hc
  have h1 : pytrunc (a * t) = ⌊a * t⌋ := pytrunc_of_nonneg _ (mul_nonneg ha ht)
  have h2 : pytrunc (c * t) = ⌊c * t⌋ := pytrunc_of_nonneg _ (mul_nonneg hc ht)
  simp only [AnimationFlash.evaluate, flashSpecFloorY, h1, h2]

/-- Witness for the amended claim C6, at `t = 1/8` with a red source. -/
theorem flash_floor_on_nonneg_witness :
    AnimationFlash.evaluate (ColorF.make 1 0 0) 12 2 2 2 (1/8) 0 =
      (ColorF.make 1 0 0).scale_brightness (flashSpecFloorY 12 2 2 2 (1/8)) :=
  flash_floor_on_nonneg (ColorF.make 1 0 0) 12 2 2 2 (1/8) 0
    (by norm_num) (by norm_num) (by norm_num)

/-! ### Claim C2: baking is zero-order-hold quantization -/

theorem getD_map_range {α : Type} (f : ℕ → α) (d : α) (k i : ℕ) (h : i < k) :
    ((List.range k).map f).getD i d = f i := by
  simp [List.getD_eq_getElem?_getD, List.getElem?_map, List.getElem?_range, h]

/-- Claim C2: for `t, n ∈ [0,1)` and positive step counts,
`BakedAnimation(base, t_steps, n_steps).evaluate(t, n)` equals
`base.evaluate(⌊t*t_steps⌋/t_steps, ⌊n*n_steps⌋/n_steps)` — a
zero-order-hold quantization of the base animation onto the
construction-time grid. -/
theorem cache_getD (base : Animation) (ts ns : ℕ) (i j : ℕ) (hi : i < ts) (hj : j < ns) :
    ((BakedAnimation.cache base ts ns).getD i []).getD j (ColorF.make 0 0 0) =
      base ((i : ℚ) / (ts : ℚ)) ((j : ℚ) / (ns : ℚ)) := by
  rw [BakedAnimation.cache, getD_map_range _ _ _ _ hi, getD_map_range _ _ _ _ hj]

/-- Claim C2: for `t, n ∈ [0,1)` and positive step counts,
`BakedAnimation(base, t_steps, n_steps).evaluate(t, n)` equals
`base.evaluate(⌊t*t_steps⌋/t_steps, ⌊n*n_steps⌋/n_steps)` — a
zero-order-hold quantization of the base animation onto the
construction-time grid. -/
theorem baked_zero_order_hold :
    ∀ (base : Animation) (t_steps n_steps : ℕ) (t n : ℚ),
      0 < t_steps → 0 < n_steps → 0 ≤ t → t < 1 → 0 ≤ n → n < 1 →
      BakedAnimation.evaluate base t_steps n_steps t n =
        base (((⌊t * (t_steps : ℚ)⌋ : ℤ) : ℚ) / (t_steps : ℚ))
             (((⌊n * (n_steps : ℚ)⌋ : ℤ) : ℚ) / (n_steps : ℚ)) := by
  intro base ts ns t n hts hns ht0 ht1 hn0 hn1
  have htsq : (0:ℚ) < (ts:ℚ) := by exact_mod_cast hts
  have hnsq : (0:ℚ) < (ns:ℚ) := by exact_mod_cast hns
  have htr : pytrunc (t * (ts:ℚ)) = ⌊t * (ts:ℚ)⌋ :=
    pytrunc_of_nonneg _ (mul_nonneg ht0 htsq.le)
  have hnr : pytrunc (n * (ns:ℚ)) = ⌊n * (ns:ℚ)⌋ :=
    pytrunc_of_nonneg _ (mul_nonneg hn0 hnsq.le)
  have htge : 0 ≤ ⌊t * (ts:ℚ)⌋ := Int.floor_nonneg.mpr (mul_nonneg ht0 htsq.le)
  have hnge : 0 ≤ ⌊n * (ns:ℚ)⌋ := Int.floor_nonneg.mpr (mul_nonneg hn0 hnsq.le)
  have htlt : ⌊t * (ts:ℚ)⌋ < (ts:ℤ) := Int.floor_lt.mpr (by push_cast; nlinarith)
  have hnlt : ⌊n * (ns:ℚ)⌋ < (ns:ℤ) := Int.floor_lt.mpr (by push_cast; nlinarith)
  have hmt : (⌊t * (ts:ℚ)⌋).emod (ts:ℤ) = ⌊t * (ts:ℚ)⌋ := Int.emod_eq_of_lt htge htlt
  have hmn : (⌊n * (ns:ℚ)⌋).emod (ns:ℤ) = ⌊n * (ns:ℚ)⌋ := Int.emod_eq_of_lt hnge hnlt
  have hidxt : (⌊t * (ts:ℚ)⌋).toNat < ts := by omega
  have hidxn : (⌊n * (ns:ℚ)⌋).toNat < ns := by omega
  have hct : ((⌊t * (ts:ℚ)⌋.toNat : ℕ) : ℚ) = ((⌊t * (ts:ℚ)⌋ : ℤ) : ℚ) := by
    exact_mod_cast Int.toNat_of_nonneg htge
  have hcn : ((⌊n * (ns:ℚ)⌋.toNat : ℕ) : ℚ) = ((⌊n * (ns:ℚ)⌋ : ℤ) : ℚ) := by
    exact_mod_cast Int.toNat_of_nonneg hnge
  rw [show BakedAnimation.evaluate base ts ns t n =
      ((BakedAnimation.cache base ts ns).getD
        ((pytrunc (pymod t 1 * (ts : ℚ))).emod (ts:ℤ)).toNat []).getD
        ((pytrunc (pymod n 1 * (ns : ℚ))).emod (ns:ℤ)).toNat (ColorF.make 0 0 0)
    from rfl]
  rw [pymod_eq_self t 1 ht0 ht1, pymod_eq_self n 1 hn0 hn1, htr, hnr, hmt, hmn,
    cache_getD base ts ns _ _ hidxt hidxn, hct, hcn]

/-- Witness for claim C2, at `t_steps = n_steps = 10`, `t = 1/4`, `n = 1/2`. -/
theorem baked_zero_order_hold_witness :
    BakedAnimation.evaluate probeAnimation 10 10 (1/4) (1/2) =
      probeAnimation (((⌊(1/4 : ℚ) * ((10:ℕ) : ℚ)⌋ : ℤ) : ℚ) / ((10:ℕ) : ℚ))
                     (((⌊(1/2 : ℚ) * ((10:ℕ) : ℚ)⌋ : ℤ) : ℚ) / ((10:ℕ) : ℚ)) :=
  baked_zero_order_hold probeAnimation 10 10 (1/4) (1/2)
    (by norm_num) (by norm_num) (by norm_num) (by norm_num) (by norm_num) (by norm_num)

/-! ### Topology helper lemmas -/

theorem foldl_min_le :
    ∀ (l : List NeoPixelBlock) (acc : ℤ),
      (l.foldl (fun a b => min a b.n) acc ≤ acc) ∧
      (∀ blk ∈ l, l.foldl (fun a b => min a b.n) acc ≤ blk.n) := by
  intro l
  induction l with
  | nil => intro acc; exact ⟨le_refl acc, by simp⟩
  | cons b rest ih =>
    intro acc
    have h := ih (min acc b.n)
    refine ⟨le_trans h.1 (min_le_left _ _), ?_⟩
    intro blk hblk
    rcases List.mem_cons.mp hblk with heq | hmem
    · subst heq
      exact le_trans h.1 (min_le_right _ _)
    · exact h.2 blk hmem

theorem replicate_n_le (blocks : List NeoPixelBlock) (blk : NeoPixelBlock)
    (h : blk ∈ blocks) : NeoPixelReplicate.n blocks ≤ blk.n := by
  cases blocks with
  | nil => cases h
  | cons b rest =>
    rcases List.mem_cons.mp h with heq | hmem
    · rw [heq]
      exact (foldl_min_le rest b.n).1
    · exact (foldl_min_le rest b.n).2 blk hmem

theorem foldl_min_attained :
    ∀ (l : List NeoPixelBlock) (acc : ℤ),
      l.foldl (fun a b => min a b.n) acc = acc ∨
      ∃ blk ∈ l, l.foldl (fun a b => min a b.n) acc = blk.n := by
  intro l
  induction l with
  | nil => intro acc; exact Or.inl rfl
  | cons b rest ih =>
    intro acc
    rcases ih (min acc b.n) with h | ⟨blk, hmem, heq⟩
    · rcases min_cases acc b.n with ⟨hm, _⟩ | ⟨hm, _⟩
      · exact Or.inl (by rw [List.foldl_cons, h, hm])
      · exact Or.inr ⟨b, List.mem_cons_self b rest, by rw [List.foldl_cons, h, hm]⟩
    · exact Or.inr ⟨blk, List.mem_cons_of_mem b hmem, heq⟩

theorem replicateSetGo_preserve {V : Type} (i : ℤ) (v : V) :
    ∀ (blocks : List NeoPixelBlock) (np : ℤ → V) (addr : ℤ),
      np addr = v → (replicateSetGo np blocks i v).2 addr = v := by
  intro blocks
  induction blocks with
  | nil => intro np addr h; exact h
  | cons blk rest ih =>
    intro np addr h
    rw [replicateSetGo]
    by_cases hb : i < 0 ∨ i ≥ blk.n
    · rw [NeoPixelBlock.set, if_pos hb]
      exact h
    · rw [NeoPixelBlock.set, if_neg hb]
      simp only [if_pos]
      refine ih _ addr ?_
      by_cases ha : addr = blk.start + i
      · simp [ha]
      · simp [ha, h]

theorem replicateSetGo_inrange {V : Type} (i : ℤ) (v : V) :
    ∀ (blocks : List NeoPixelBlock) (np : ℤ → V),
      (∀ blk ∈ blocks, 0 ≤ i ∧ i < blk.n) →
      (replicateSetGo np blocks i v).1 = true ∧
      ∀ blk ∈ blocks, (replicateSetGo np blocks i v).2 (blk.start + i) = v := by
  intro blocks
  induction blocks with
  | nil => intro np _; exact ⟨rfl, by simp⟩
  | cons blk rest ih =>
    intro np hall
    have hblk := hall blk (List.mem_cons_self blk rest)
    have hb : ¬ (i < 0 ∨ i ≥ blk.n) := by
      push_neg
      exact ⟨hblk.1, hblk.2⟩
    rw [replicateSetGo, NeoPixelBlock.set, if_neg hb]
    simp only [if_pos]
    have ihres := ih (fun j => if j = blk.start + i then v else np j)
      (fun b hb' => hall b (List.mem_cons_of_mem blk hb'))
    refine ⟨ihres.1, ?_⟩
    intro b hbmem
    rcases List.mem_cons.mp hbmem with heq | hmem
    · subst heq
      exact replicateSetGo_preserve i v rest _ _ (by simp)
    · exact ihres.2 b hmem

/-! ### Claim C7: Block is a bounds-checked view -/

/-- Claim C7: `Block(sink, start, end).count = end - start` (so
`Block(sink,2,5).count = 3`); `get(i)` and `set(i, value)` fail with a
bounds error exactly when `i < 0 ∨ i ≥ end - start`; an in-range
`set(i, value)` writes `value` to the sink at absolute index `start + i`
and changes nothing else; `fill(color)` writes `color` to every physical
index in `[start, end)`; for `Block(sink,2,5)`, `set(-1, X)` and
`set(3, X)` both fail the bounds check. -/
theorem block_bounds :
    ((⟨2, 5⟩ : NeoPixelBlock).n = 3) ∧
    (∀ (V : Type) (np : ℤ → V) (blk : NeoPixelBlock) (i : ℤ),
      NeoPixelBlock.get np blk i = none ↔ (i < 0 ∨ i ≥ blk.«end» - blk.start)) ∧
    (∀ (V : Type) (np : ℤ → V) (blk : NeoPixelBlock) (i : ℤ) (v : V),
      (NeoPixelBlock.set np blk i v).1 = false ↔ (i < 0 ∨ i ≥ blk.«end» - blk.start)) ∧
    (∀ (V : Type) (np : ℤ → V) (blk : NeoPixelBlock) (i : ℤ) (v : V),
      0 ≤ i → i < blk.n →
      (NeoPixelBlock.set np blk i v).1 = true ∧
      (NeoPixelBlock.set np blk i v).2 (blk.start + i) = v ∧
      ∀ j : ℤ, j ≠ blk.start + i → (NeoPixelBlock.set np blk i v).2 j = np j) ∧
    (∀ (V : Type) (np : ℤ → V) (blk : NeoPixelBlock) (c : V) (j : ℤ),
      (blk.start ≤ j → j < blk.«end» → NeoPixelBlock.fill np blk c j = c) ∧
      (¬ (blk.start ≤ j ∧ j < blk.«end») → NeoPixelBlock.fill np blk c j = np j)) ∧
    (∀ (V : Type) (np : ℤ → V) (v : V),
      (NeoPixelBlock.set np (⟨2, 5⟩ : NeoPixelBlock) (-1) v).1 = false ∧
      (NeoPixelBlock.set np (⟨2, 5⟩ : NeoPixelBlock) 3 v).1 = false) := by
  refine ⟨by norm_num [NeoPixelBlock.n], ?_, ?_, ?_, ?_, ?_⟩
  · intro V np blk i
    by_cases h : i < 0 ∨ i ≥ blk.n
    · simp only [NeoPixelBlock.get, if_pos h]
      simpa [NeoPixelBlock.n] using h
    · simp only [NeoPixelBlock.get, if_neg h]
      simpa [NeoPixelBlock.n] using h
  · intro V np blk i v
    by_cases h : i < 0 ∨ i ≥ blk.n
    · simp only [NeoPixelBlock.set, if_pos h]
      simpa [NeoPixelBlock.n] using h
    · simp only [NeoPixelBlock.set, if_neg h]
      simpa [NeoPixelBlock.n] using h
  · intro V np blk i v h0 h1
    have h : ¬ (i < 0 ∨ i ≥ blk.n) := by
      push_neg
      exact ⟨h0, h1⟩
    refine ⟨by simp [NeoPixelBlock.set, if_neg h], by simp [NeoPixelBlock.set, if_neg h], ?_⟩
    intro j hj
    simp [NeoPixelBlock.set, if_neg h, hj]
  · intro V np blk c j
    constructor
    · intro h0 h1
      simp [NeoPixelBlock.fill, h0, h1]
    · intro h
      simp [NeoPixelBlock.fill, h]
  · intro V np v
    constructor
    · rw [NeoPixelBlock.set, if_pos (Or.inl (by norm_num))]
    · rw [NeoPixelBlock.set, if_pos (Or.inr (by norm_num [NeoPixelBlock.n]))]

/-- Witness for claim C7: a concrete in-range write on `Block(sink, 2, 5)`. -/
theorem block_bounds_witness :
    (NeoPixelBlock.set (fun _ => (0:ℤ)) (⟨2, 5⟩ : NeoPixelBlock) 1 9).1 = true ∧
    (NeoPixelBlock.set (fun _ => (0:ℤ)) (⟨2, 5⟩ : NeoPixelBlock) 1 9).2
      ((⟨2, 5⟩ : NeoPixelBlock).start + 1) = 9 :=
  have h := block_bounds.2.2.2.1 ℤ (fun _ => (0:ℤ)) (⟨2, 5⟩ : NeoPixelBlock) 1 9
    (by norm_num) (by norm_num [NeoPixelBlock.n])
  ⟨h.1, h.2.1⟩

/-! ### Claim C8: Replicate fans out writes -/

/-- Claim C8: `Replicate(children...).count` is the minimum of the children's
counts (instance: children of counts 3 and 5 give 3); an in-range
`set(i, value)` lands on every child so the written value is observable
through each child at `i`; `get(i)` reads only through the first child; and
`set(4, X)` when the logical count is 3 fails the bounds check before
touching the sink. -/
theorem replicate_fanout :
    (∀ blocks : List NeoPixelBlock, blocks ≠ [] →
      (∀ blk ∈ blocks, NeoPixelReplicate.n blocks ≤ blk.n) ∧
      (∃ blk ∈ blocks, NeoPixelReplicate.n blocks = blk.n)) ∧
    (NeoPixelReplicate.n [⟨0, 3⟩, ⟨3, 8⟩] = 3) ∧
    (∀ (V : Type) (np : ℤ → V) (blocks : List NeoPixelBlock) (i : ℤ) (v : V),
      0 ≤ i → i < NeoPixelReplicate.n blocks →
      ∀ blk ∈ blocks,
        NeoPixelBlock.get (NeoPixelReplicate.set np blocks i v).2 blk i = some v) ∧
    (∀ (V : Type) (np : ℤ → V) (blk : NeoPixelBlock) (rest : List NeoPixelBlock) (i : ℤ),
      ¬ (i < 0 ∨ i ≥ NeoPixelReplicate.n (blk :: rest)) →
      NeoPixelReplicate.get np (blk :: rest) i = NeoPixelBlock.get np blk i) ∧
    (∀ (V : Type) (np : ℤ → V) (v : V),
      NeoPixelReplicate.set np [⟨0, 3⟩, ⟨3, 8⟩] 4 v = (false, np)) := by
  refine ⟨?_, ?_, ?_, ?_, ?_⟩
  · intro blocks hne
    refine ⟨fun blk hblk => replicate_n_le blocks blk hblk, ?_⟩
    cases blocks with
    | nil => exact absurd rfl hne
    | cons b rest =>
      rcases foldl_min_attained rest b.n with h | ⟨blk, hmem, heq⟩
      · exact ⟨b, List.mem_cons_self b rest, h⟩
      · exact ⟨blk, List.mem_cons_of_mem b hmem, heq⟩
  · decide
  · intro V np blocks i v h0 h1
    have hoob : ¬ (i < 0 ∨ i ≥ NeoPixelReplicate.n blocks) := by
      push_neg
      exact ⟨h0, h1⟩
    have hall : ∀ blk ∈ blocks, 0 ≤ i ∧ i < blk.n := fun blk hblk =>
      ⟨h0, lt_of_lt_of_le h1 (replicate_n_le blocks blk hblk)⟩
    have hgo := replicateSetGo_inrange i v blocks np hall
    intro blk hblk
    have hbnd : ¬ (i < 0 ∨ i ≥ blk.n) := by
      push_neg
      exact hall blk hblk
    rw [NeoPixelReplicate.set, if_neg hoob, NeoPixelBlock.get, if_neg hbnd,
      hgo.2 blk hblk]
  · intro V np blk rest i hoob
    rw [NeoPixelReplicate.get, if_neg hoob]
  · intro V np v
    rw [NeoPixelReplicate.set, if_pos (Or.inr (by decide))]

/-- Witness for claim C8: a write at index 2 through
`Replicate(Block(0,3), Block(3,8))` is observable on both children. -/
theorem replicate_fanout_witness :
    NeoPixelBlock.get (NeoPixelReplicate.set (fun _ => (0:ℤ)) [⟨0, 3⟩, ⟨3, 8⟩] 2 9).2
      (⟨0, 3⟩ : NeoPixelBlock) 2 = some 9 ∧
    NeoPixelBlock.get (NeoPixelReplicate.set (fun _ => (0:ℤ)) [⟨0, 3⟩, ⟨3, 8⟩] 2 9).2
      (⟨3, 8⟩ : NeoPixelBlock) 2 = some 9 :=
  have h := replicate_fanout.2.2.1 ℤ (fun _ => (0:ℤ)) [⟨0, 3⟩, ⟨3, 8⟩] 2 9
    (by norm_num) (by decide)
  ⟨h ⟨0, 3⟩ (by simp), h ⟨3, 8⟩ (by simp)⟩

/-! ### Claim C10: fan-out writes are all-or-nothing -/

/-- Claim C10: an out-of-range `Replicate.set` fails its own bounds check
before any child is written, returning the sink unchanged; and an in-range
index is in range for every child (because the logical count is the minimum
of the children's counts), so an in-range fan-out write succeeds as a whole
and lands on all children. -/
theorem replicate_set_all_or_nothing :
    (∀ (V : Type) (np : ℤ → V) (blocks : List NeoPixelBlock) (i : ℤ) (v : V),
      (i < 0 ∨ i ≥ NeoPixelReplicate.n blocks) →
      NeoPixelReplicate.set np blocks i v = (false, np)) ∧
    (∀ (blocks : List NeoPixelBlock) (i : ℤ),
      0 ≤ i → i < NeoPixelReplicate.n blocks →
      ∀ blk ∈ blocks, 0 ≤ i ∧ i < blk.n) ∧
    (∀ (V : Type) (np : ℤ → V) (blocks : List NeoPixelBlock) (i : ℤ) (v : V),
      0 ≤ i → i < NeoPixelReplicate.n blocks →
      (NeoPixelReplicate.set np blocks i v).1 = true ∧
      ∀ blk ∈ blocks, (NeoPixelReplicate.set np blocks i v).2 (blk.start + i) = v) := by
  refine ⟨?_, ?_, ?_⟩
  · intro V np blocks i v h
    rw [NeoPixelReplicate.set, if_pos h]
  · intro blocks i h0 h1 blk hblk
    exact ⟨h0, lt_of_lt_of_le h1 (replicate_n_le blocks blk hblk)⟩
  · intro V np blocks i v h0 h1
    have hoob : ¬ (i < 0 ∨ i ≥ NeoPixelReplicate.n blocks) := by
      push_neg
      exact ⟨h0, h1⟩
    have hall : ∀ blk ∈ blocks, 0 ≤ i ∧ i < blk.n := fun blk hblk =>
      ⟨h0, lt_of_lt_of_le h1 (replicate_n_le blocks blk hblk)⟩
    have hgo := replicateSetGo_inrange i v blocks np hall
    rw [NeoPixelReplicate.set, if_neg hoob]
    exact hgo

/-- Witness for claim C10: an out-of-range write at index 7 leaves the
sink unchanged, and an in-range write at index 1 succeeds on all children. -/
theorem replicate_set_all_or_nothing_witness :
    NeoPixelReplicate.set (fun _ => (0:ℤ)) [⟨0, 3⟩, ⟨3, 8⟩] 7 9 =
      (false, fun _ => (0:ℤ)) ∧
    (NeoPixelReplicate.set (fun _ => (0:ℤ)) [⟨0, 3⟩, ⟨3, 8⟩] 1 9).1 = true :=
  ⟨replicate_set_all_or_nothing.1 ℤ (fun _ => (0:ℤ)) [⟨0, 3⟩, ⟨3, 8⟩] 7 9
    (Or.inr (by decide)),
   (replicate_set_all_or_nothing.2.2 ℤ (fun _ => (0:ℤ)) [⟨0, 3⟩, ⟨3, 8⟩] 1 9
    (by norm_num) (by decide)).1⟩

/-! ### Claim C1: concatenation dispatch -/

theorem zip_durations :
    ∀ animations : List Animation,
      animations.zip (ConcatenatedAnimation.durations animations) =
        animations.map fun a => (a, (1:ℚ)) := by
  intro l
  induction l with
  | nil => rfl
  | cons a rest ih =>
    simp only [ConcatenatedAnimation.durations, List.map_cons, List.zip_cons_cons] at ih ⊢
    rw [ih]

theorem total_duration_eq_length :
    ∀ animations : List Animation,
      ConcatenatedAnimation.total_duration animations = (animations.length : ℚ) := by
  intro l
  induction l with
  | nil => rfl
  | cons a rest ih =>
    simp only [ConcatenatedAnimation.total_duration, ConcatenatedAnimation.durations,
      List.map_cons, List.sum_cons, List.length_cons] at ih ⊢
    rw [ih]
    push_cast
    ring

theorem concatGo_ones_dispatch :
    ∀ (l : List Animation) (cumulative t n : ℚ),
      0 ≤ t - cumulative → t - cumulative < (l.length : ℚ) →
      concatGo (l.map fun a => (a, (1:ℚ))) cumulative t n =
        (l.getD (max 0 (⌈t - cumulative⌉ - 1)).toNat blackAnimation)
          (t - cumulative - ((max 0 (⌈t - cumulative⌉ - 1) : ℤ) : ℚ)) n := by
  intro l
  induction l with
  | nil =>
    intro cum t n h0 h1
    simp only [List.length_nil, Nat.cast_zero] at h1
    exact absurd h1 (not_lt.mpr h0)
  | cons a rest ih =>
    intro cum t n h0 h1
    rw [List.map_cons, concatGo]
    by_cases h : cum + 1 ≥ t
    · rw [if_pos h]
      have hceil : ⌈t - cum⌉ ≤ 1 := Int.ceil_le.mpr (by push_cast; linarith)
      have hmax : max 0 (⌈t - cum⌉ - 1) = 0 := max_eq_left (by omega)
      rw [hmax]
      simp
    · rw [if_neg h]
      push_neg at h
      have hs1 : (1:ℚ) < t - cum := by linarith
      have hceil2 : 2 ≤ ⌈t - cum⌉ := by
        have hlt : (1:ℤ) < ⌈t - cum⌉ := Int.lt_ceil.mpr (by exact_mod_cast hs1)
        omega
      have hlen : t - (cum + 1) < (rest.length : ℚ) := by
        simp only [List.length_cons] at h1
        push_cast at h1
        linarith
      have hrec := ih (cum + 1) t n (by linarith) hlen
      rw [hrec]
      have e2 : ⌈t - (cum + 1)⌉ = ⌈t - cum⌉ - 1 := by
        rw [show t - (cum + 1) = (t - cum) - 1 by ring]
        exact Int.ceil_sub_one _
      have hm1 : max 0 (⌈t - cum⌉ - 1) = ⌈t - cum⌉ - 1 := by omega
      have hm2 : max 0 (⌈t - (cum + 1)⌉ - 1) = ⌈t - cum⌉ - 2 := by
        rw [e2]
        omega
      have hidx : (⌈t - cum⌉ - 1).toNat = (⌈t - cum⌉ - 2).toNat + 1 := by omega
      have harg : t - (cum + 1) - ((⌈t - cum⌉ - 2 : ℤ) : ℚ) =
          t - cum - ((⌈t - cum⌉ - 1 : ℤ) : ℚ) := by
        push_cast
        ring
      rw [hm1, hm2, hidx, harg, List.getD_cons_succ]

/-- Claim C1: `ConcatenatedAnimation` over unit-duration children first
reduces `t` modulo the total duration `k` (the child count) and dispatches
to the first child whose cumulative end is `≥ t'` at
`local_t = t' - cumulative_start` — equivalently to child
`max 0 (⌈t'⌉ - 1)`; for two children, `evaluate(0.999, n) = A(0.999, n)`,
`evaluate(1.0, n) = A(1.0, n)` (the exact boundary favors the earlier
segment) and `evaluate(1.0001, n) = B(0.0001, n)`; the exhausted-walk
fallback is pure black. -/
theorem concat_dispatch :
    (∀ (animations : List Animation) (t n : ℚ), animations ≠ [] →
      ConcatenatedAnimation.evaluate animations t n =
        (animations.getD
            (max 0 (⌈pymod t (ConcatenatedAnimation.total_duration animations)⌉ - 1)).toNat
            blackAnimation)
          (pymod t (ConcatenatedAnimation.total_duration animations) -
            ((max 0 (⌈pymod t (ConcatenatedAnimation.total_duration animations)⌉ - 1) : ℤ) : ℚ))
          n) ∧
    (∀ (A B : Animation) (n : ℚ),
      ConcatenatedAnimation.evaluate [A, B] (999/1000) n = A (999/1000) n ∧
      ConcatenatedAnimation.evaluate [A, B] 1 n = A 1 n ∧
      ConcatenatedAnimation.evaluate [A, B] (10001/10000) n = B (1/10000) n) ∧
    (∀ cumulative t n : ℚ, concatGo [] cumulative t n = ColorF.make 0 0 0) := by
  have htot2 : ∀ A B : Animation, ConcatenatedAnimation.total_duration [A, B] = 2 := by
    intro A B
    norm_num [ConcatenatedAnimation.total_duration, ConcatenatedAnimation.durations]
  refine ⟨?_, ?_, fun _ _ _ => rfl⟩
  · intro anims t n hne
    have hlen : 0 < anims.length := List.length_pos.mpr hne
    have hlenq : (0:ℚ) < (anims.length : ℚ) := by exact_mod_cast hlen
    have htotpos : 0 < ConcatenatedAnimation.total_duration anims := by
      rw [total_duration_eq_length]
      exact hlenq
    have h0 : (0:ℚ) ≤ pymod t (ConcatenatedAnimation.total_duration anims) - 0 := by
      simpa using pymod_nonneg t _ htotpos
    have h1 : pymod t (ConcatenatedAnimation.total_duration anims) - 0 <
        (anims.length : ℚ) := by
      rw [sub_zero, ← total_duration_eq_length]
      exact pymod_lt t _ htotpos
    have h := concatGo_ones_dispatch anims 0
      (pymod t (ConcatenatedAnimation.total_duration anims)) n h0 h1
    rw [ConcatenatedAnimation.evaluate, zip_durations]
    simpa using h
  · intro A B n
    have hm1 : pymod (999/1000 : ℚ) 2 = 999/1000 :=
      pymod_eq_self _ _ (by norm_num) (by norm_num)
    have hm2 : pymod (1 : ℚ) 2 = 1 :=
      pymod_eq_self _ _ (by norm_num) (by norm_num)
    have hm3 : pymod (10001/10000 : ℚ) 2 = 10001/10000 :=
      pymod_eq_self _ _ (by norm_num) (by norm_num)
    refine ⟨?_, ?_, ?_⟩ <;>
      norm_num [ConcatenatedAnimation.evaluate, ConcatenatedAnimation.total_duration,
        ConcatenatedAnimation.durations, List.zip_cons_cons, hm1, hm2, hm3, concatGo]

/-- Witness for claim C1: with two children and `t = 3/2`, the general
dispatch rule selects the second child at local time `1/2`. -/
theorem concat_dispatch_witness :
    ConcatenatedAnimation.evaluate [probeAnimation, redAnimation] (3/2) 0 =
      redAnimation (1/2) 0 := by
  have h := concat_dispatch.1 [probeAnimation, redAnimation] (3/2) 0 (by simp)
  have htot : ConcatenatedAnimation.total_duration [probeAnimation, redAnimation] = 2 := by
    norm_num [ConcatenatedAnimation.total_duration, ConcatenatedAnimation.durations]
  rw [htot] at h
  have hm : pymod (3/2 : ℚ) 2 = 3/2 := pymod_eq_self _ _ (by norm_num) (by norm_num)
  rw [hm] at h
  have hc : ⌈(3/2 : ℚ)⌉ = 2 := by
    rw [Int.ceil_eq_iff]
    norm_num
  rw [hc] at h
  norm_num [List.getD] at h
  exact h
